import Mathlib

/-!
# Verification of the xzip exploder and reconstitution read path

Shallow embedding of the core of the `xzip` repository
(`xzip/explode.py`, `xzip/analyze.py`, `xzip/fs.py`).

Files are modelled as `List Nat` of byte values; Python `file.read(n)`
at position `p` is `fread`, which returns the clamped slice and the new
position (Python reads past EOF return `b''` and leave the position in
place, which the clamped slice reproduces).  Little-endian fixed-width
fields are decoded with `le16`/`le32`/`le64` and re-encoded with
`enc16`/`enc32`/`enc64`, mirroring the `struct` format strings
`<4s5H3L2H` (local file header), `<4s6H3L5H2L` (central directory
entry), `<4s4H2LH` (end of central directory), `<4s5H3L2HB20s` (stream
item) and `<2Q` (jump item).

SHA-1 itself is kept abstract: every definition that hashes takes a
digest function `h : List Nat → List Nat` as a parameter.  The blob
store is content addressed through `h`, so claims about blob contents
assume `h` is injective (collision-freeness of SHA-1), exactly the
invariant the source relies on.
-/

set_option maxRecDepth 8000

namespace Xzip

/-- Byte of a list at index `i` (0 past the end, as a decoding default). -/
def byteAt (s : List Nat) (i : Nat) : Nat := s.getD i 0

/-- The slice `s[pos : pos+n]` (Python slicing semantics: clamped). -/
def readAt (s : List Nat) (pos n : Nat) : List Nat := (s.drop pos).take n

/-- Python `file.read(n)` from position `pos`: the bytes obtained and the
new file position (advanced by the number of bytes actually read). -/
def fread (s : List Nat) (pos n : Nat) : List Nat × Nat :=
  let r := readAt s pos n
  (r, pos + r.length)

/-- Little-endian 16-bit field at index `i`. -/
def le16 (s : List Nat) (i : Nat) : Nat := byteAt s i + 256 * byteAt s (i + 1)

/-- Little-endian 32-bit field at index `i`. -/
def le32 (s : List Nat) (i : Nat) : Nat := le16 s i + 65536 * le16 s (i + 2)

/-- Little-endian 64-bit field at index `i`. -/
def le64 (s : List Nat) (i : Nat) : Nat := le32 s i + 4294967296 * le32 s (i + 4)

/-- Little-endian 16-bit encoding (`struct` format `H`). -/
def enc16 (n : Nat) : List Nat := [n % 256, n / 256 % 256]

/-- Little-endian 32-bit encoding (`struct` format `L`). -/
def enc32 (n : Nat) : List Nat := enc16 (n % 65536) ++ enc16 (n / 65536)

/-- Little-endian 64-bit encoding (`struct` format `Q`). -/
def enc64 (n : Nat) : List Nat := enc32 (n % 4294967296) ++ enc32 (n / 4294967296)

/-- A fixed-size byte field (`struct` format `ns`): pad with zeros /
truncate to exactly `n` bytes. -/
def padTo (n : Nat) (s : List Nat) : List Nat := (s ++ List.replicate n 0).take n

/-- Hex digest of a byte string: each byte becomes its two hex nibbles
(`sha.hexdigest()` up to the bijective nibble-to-character rendering). -/
def hexDigest (s : List Nat) : List Nat := s.flatMap (fun b => [b / 16, b % 16])

/-- `PK\x03\x04`, the local file header marker. -/
def lfhMarker : List Nat := [80, 75, 3, 4]

/-- `PK\x01\x02`, the central directory entry marker. -/
def cdeMarker : List Nat := [80, 75, 1, 2]

/-- `PK\x05\x06`, the end-of-central-directory marker. -/
def eocdMarker : List Nat := [80, 75, 5, 6]

/-- `PK\x07\x08`, the optional data descriptor marker. -/
def ddMarker : List Nat := [80, 75, 7, 8]

/-- Decoded local file header (`LOCAL_HEADER = <4s5H3L2H`, 30 bytes). -/
structure LFHRec where
  signature : List Nat
  needed_version : Nat
  flag : Nat
  compression : Nat
  mod_time : Nat
  mod_date : Nat
  crc : Nat
  compressed_size : Nat
  raw_size : Nat
  filename_len : Nat
  extra_field_len : Nat
  deriving Repr, DecidableEq

/-- Decode a local file header from its 30 raw bytes. -/
def parseLFH (s : List Nat) : LFHRec where
  signature := readAt s 0 4
  needed_version := le16 s 4
  flag := le16 s 6
  compression := le16 s 8
  mod_time := le16 s 10
  mod_date := le16 s 12
  crc := le32 s 14
  compressed_size := le32 s 18
  raw_size := le32 s 22
  filename_len := le16 s 26
  extra_field_len := le16 s 28

/-- Re-encode a local file header (`LOCAL_HEADER.pack`, 30 bytes). -/
def encodeLFH (r : LFHRec) : List Nat :=
  padTo 4 r.signature ++ enc16 r.needed_version ++ enc16 r.flag ++
    enc16 r.compression ++ enc16 r.mod_time ++ enc16 r.mod_date ++
    enc32 r.crc ++ enc32 r.compressed_size ++ enc32 r.raw_size ++
    enc16 r.filename_len ++ enc16 r.extra_field_len

/-- Decoded central directory entry (`CENTRAL_DIR = <4s6H3L5H2L`, 46 bytes). -/
structure CDERec where
  signature : List Nat
  creator_version : Nat
  needed_version : Nat
  flag : Nat
  compression : Nat
  mod_time : Nat
  mod_date : Nat
  crc : Nat
  compressed_size : Nat
  raw_size : Nat
  filename_len : Nat
  extra_field_len : Nat
  comment_len : Nat
  disk_num_start : Nat
  internal_attr : Nat
  external_attr : Nat
  offset : Nat
  deriving Repr, DecidableEq

/-- Decode a central directory entry from its 46 raw bytes. -/
def parseCDE (s : List Nat) : CDERec where
  signature := readAt s 0 4
  creator_version := le16 s 4
  needed_version := le16 s 6
  flag := le16 s 8
  compression := le16 s 10
  mod_time := le16 s 12
  mod_date := le16 s 14
  crc := le32 s 16
  compressed_size := le32 s 20
  raw_size := le32 s 24
  filename_len := le16 s 28
  extra_field_len := le16 s 30
  comment_len := le16 s 32
  disk_num_start := le16 s 34
  internal_attr := le16 s 36
  external_attr := le32 s 38
  offset := le32 s 42

/-- Decoded end-of-central-directory record (`END_OF_DIR = <4s4H2LH`, 22 bytes). -/
structure EOCDRec where
  signature : List Nat
  disk_num : Nat
  first_disk : Nat
  local_entries : Nat
  total_entries : Nat
  directory_size : Nat
  directory_offset : Nat
  comment_len : Nat
  deriving Repr, DecidableEq

/-- Decode an end-of-central-directory record from its 22 raw bytes. -/
def parseEOCD (s : List Nat) : EOCDRec where
  signature := readAt s 0 4
  disk_num := le16 s 4
  first_disk := le16 s 6
  local_entries := le16 s 8
  total_entries := le16 s 10
  directory_size := le32 s 12
  directory_offset := le32 s 16
  comment_len := le16 s 20

/-!
## Seek tree (`xzip/fs.py`, class `SeekTree`)

`SeekTree.load` consumes the jump entries pairwise, bottom up: each
pass pairs adjacent subtrees `(L, R)` into an internal node whose key
is the minimum source offset of `R`, carrying the minimum of `L`
upward; a lone trailing subtree is carried unchanged.  The Python loop
runs passes until one element remains; `loadLoop` mirrors this with a
fuel argument that `SeekTree.load` instantiates with `length + 1`,
which is proved sufficient (`loadLoop_length`). -/

/-- The seek tree of `fs.py`: leaves carry a `(source, destination)`
location pair, internal nodes carry only a separating key. -/
inductive SeekTree where
  | leaf (loc : Nat × Nat)
  | node (key : Nat) (left right : SeekTree)
  deriving Repr, DecidableEq

namespace SeekTree

/-- `SeekTree.find`: descend left when `offset < key`, else right; a
leaf returns its location pair. -/
def find : SeekTree → Nat → Nat × Nat
  | leaf loc, _ => loc
  | node key l r, offset => if offset < key then l.find offset else r.find offset

/-- One pass of the `SeekTree.load` loop: pair up adjacent
`(tree, minimum)` elements of a level. -/
def pairUp : List (SeekTree × Nat) → List (SeekTree × Nat)
  | [] => []
  | [x] => [x]
  | l :: r :: rest => (node r.2 l.1 r.1, l.2) :: pairUp rest

/-- Run `pairUp` passes until at most one element remains (with fuel). -/
def loadLoop : Nat → List (SeekTree × Nat) → List (SeekTree × Nat)
  | 0, l => l
  | n + 1, l =>
    let t := pairUp l
    if t.length > 1 then loadLoop n t else t

/-- `SeekTree.load`: build the tree from the jump-entry pairs
(`None`, i.e. `none`, for an empty sequence). -/
def load (es : List (Nat × Nat)) : Option SeekTree :=
  match loadLoop (es.length + 1) (es.map fun e => (leaf e, e.1)) with
  | [(t, _)] => some t
  | _ => none

end SeekTree

/-!
## Correctness of the seek tree

`lastLE es o` is the specification-side answer: the last jump entry
whose source offset is `≤ o` (scanning stops at the first larger key,
which for a sorted sequence is the predecessor query).  We prove that
`SeekTree.find` on the loaded tree computes `lastLE`, and that under
the tiling hypothesis (`Tiles`) the predecessor is the unique entry
whose extent contains `o`. -/

/-- Scan for the last entry with source offset `≤ o`; `d` is the best
entry found so far.  Stops at the first entry with offset `> o`. -/
def lastLEAux (d : Nat × Nat) : List (Nat × Nat) → Nat → Nat × Nat
  | [], _ => d
  | e :: rest, o => if o < e.1 then d else lastLEAux e rest o

/-- The last entry of `es` with source offset `≤ o` (for a sorted `es`
whose head offset is `≤ o`). -/
def lastLE (es : List (Nat × Nat)) (o : Nat) : Nat × Nat := lastLEAux (0, 0) es o

/-- The source offset of the first entry (0 for an empty list). -/
def headZ (es : List (Nat × Nat)) : Nat := (es.headD (0, 0)).1

/-- Jump entries sorted strictly ascending by source offset. -/
def ZSorted (es : List (Nat × Nat)) : Prop := es.Pairwise (fun a b => a.1 < b.1)

/-- Invariant of one level of the `SeekTree.load` loop: the level's
`(tree, minimum)` elements cover consecutive nonempty blocks of the
jump-entry sequence, each tree answering the predecessor query for its
block. -/
inductive Covers : List (SeekTree × Nat) → List (Nat × Nat) → Prop
  | nil : Covers [] []
  | cons {t : SeekTree} {b es : List (Nat × Nat)} {lv : List (SeekTree × Nat)} :
      b ≠ [] →
      (∀ o, headZ b ≤ o → t.find o = lastLE b o) →
      Covers lv es →
      Covers ((t, headZ b) :: lv) (b ++ es)

/-- The tiling hypothesis: each jump entry's extent reaches exactly to
the next entry's source offset, the last one reaching `hi` (the
directory offset).  `ext e` stands for the archive-side extent of the
stream item at `e.2`: `len(zip_header) + blob length + descriptor_len`. -/
inductive Tiles (ext : Nat × Nat → Nat) : List (Nat × Nat) → Nat → Prop
  | single {e : Nat × Nat} {hi : Nat} : hi = e.1 + ext e → Tiles ext [e] hi
  | cons {e e' : Nat × Nat} {rest : List (Nat × Nat)} {hi : Nat} :
      e'.1 = e.1 + ext e → Tiles ext (e' :: rest) hi →
      Tiles ext (e :: e' :: rest) hi

/-!
## Exploder (`xzip/explode.py`)

`processFile` embeds `process_file`: it re-reads the local file header
at the central directory entry's `offset`, the variable fields, the
payload (`info.compressed_size` bytes, the authoritative count from the
central directory), and then probes for a data descriptor: 4 bytes are
read; if they equal `PK\x07\x08` the descriptor is the marker plus the
next 12 bytes; otherwise, if bit 3 of the LFH flag is set, the probe is
rewound (`seek(-4, 1)`) and 12 bytes are taken.  File positions thread
through `fread` exactly as the Python cursor does.

The blob store is an association list from sharded paths to contents;
`blobPut` mirrors the `path.isfile` guard: an existing blob is never
rewritten.  `processZip` embeds `process_zip`: locate the EOCD (fixed
trailing position, else a backwards scan over the last `2^16 + 22`
bytes), then walk `total_entries` central directory entries
accumulating the three sidecars and the blob pool.  A `none` first
component models "no outputs produced" (not-a-zip, and the
`struct.error` abort on a truncated EOCD match, both of which happen
before any file or directory is created). -/

/-- The result of `process_file` on one entry, before serialisation. -/
structure ProcessedEntry where
  lfh : LFHRec
  lfhRaw : List Nat
  varFields : List Nat
  data : List Nat
  descriptor : List Nat
  deriving Repr, DecidableEq

/-- `process_file` of `explode.py` (the pure part: the bytes it reads
and the descriptor logic; the blob put and stream write are below). -/
def processFile (A : List Nat) (info : CDERec) : ProcessedEntry :=
  let r0 := fread A info.offset 30
  let header := parseLFH r0.1
  let r1 := fread A r0.2 (header.filename_len + header.extra_field_len)
  let r2 := fread A r1.2 info.compressed_size
  let probe := fread A r2.2 4
  let descriptor :=
    if probe.1 = ddMarker then ddMarker ++ (fread A probe.2 12).1
    else if header.flag &&& 8 ≠ 0 then (fread A (probe.2 - 4) 12).1
    else []
  { lfh := header, lfhRaw := r0.1, varFields := r1.1, data := r2.1,
    descriptor := descriptor }

/-- The bytes `process_file` appends to the stream sidecar:
`STREAM_ITEM.pack(*(header + (len(descriptor), sha.digest())))`, the
variable fields, then the descriptor.  `h` is the digest function
(SHA-1 in the source); `20s` pads/truncates the digest to 20 bytes. -/
def streamItemBytes (h : List Nat → List Nat) (e : ProcessedEntry) : List Nat :=
  encodeLFH e.lfh ++ [e.descriptor.length] ++ padTo 20 (h e.data) ++
    e.varFields ++ e.descriptor

/-- The blob pool: sharded path components ↦ blob contents. -/
abbrev BlobPool := List (List (List Nat) × List Nat)

/-- The depth-`D` sharded blob path for a hex digest: one directory per
leading hex character, then the full hex name. -/
def blobPath (depth : Nat) (digestHex : List Nat) : List (List Nat) :=
  (digestHex.take depth).map (fun c => [c]) ++ [digestHex]

/-- Lookup of a blob by path. -/
def poolLookup : BlobPool → List (List Nat) → Option (List Nat)
  | [], _ => none
  | (k, c) :: rest, key => if k = key then some c else poolLookup rest key

/-- Content-addressed put: `if not path.isfile(data_name): write` — an
existing blob is left untouched. -/
def blobPut (pool : BlobPool) (key : List (List Nat)) (c : List Nat) : BlobPool :=
  match poolLookup pool key with
  | some _ => pool
  | none => (key, c) :: pool

/-- The sharded key under which `process_file` stores a payload. -/
def blobKey (h : List Nat → List Nat) (depth : Nat) (d : List Nat) :
    List (List Nat) :=
  blobPath depth (hexDigest (h d))

/-- The three per-archive sidecar files, as byte strings. -/
structure Sidecars where
  jump : List Nat
  stream : List Nat
  dir : List Nat
  deriving Repr, DecidableEq

/-- Accumulator of the central-directory walk: archive cursor, the
three growing sidecars, and the blob pool. -/
structure ExplodeAcc where
  pos : Nat
  jump : List Nat
  stream : List Nat
  dir : List Nat
  pool : BlobPool
  deriving Repr

/-- One iteration of the `process_zip` entry loop: read a CDE (46
bytes, appended verbatim to the directory sidecar), append the jump
entry `(info.offset, stream.tell())`, run `process_file` (stream item
and blob put), then append the CDE's variable trail to the directory
sidecar. -/
def explodeStep (h : List Nat → List Nat) (depth : Nat) (A : List Nat)
    (acc : ExplodeAcc) : ExplodeAcc :=
  let rcd := fread A acc.pos 46
  let info := parseCDE rcd.1
  let e := processFile A info
  let rtrail := fread A rcd.2
    (info.filename_len + info.extra_field_len + info.comment_len)
  { pos := rtrail.2
    jump := acc.jump ++ enc64 info.offset ++ enc64 acc.stream.length
    stream := acc.stream ++ streamItemBytes h e
    dir := acc.dir ++ rcd.1 ++ rtrail.1
    pool := blobPut acc.pool (blobKey h depth e.data) e.data }

/-- The `for _ in range(eoa.total_entries)` loop. -/
def explodeLoop (h : List Nat → List Nat) (depth : Nat) (A : List Nat) :
    Nat → ExplodeAcc → ExplodeAcc
  | 0, acc => acc
  | n + 1, acc => explodeLoop h depth A n (explodeStep h depth A acc)

/-- Rightmost occurrence index of the EOCD marker (`bytes.rfind`). -/
def rfindMarker (s : List Nat) : Option Nat :=
  ((List.range s.length).filter (fun i => decide (readAt s i 4 = eocdMarker))).getLast?

/-- Locate the EOCD record: decode at `filesize - 22`; on a signature
mismatch scan the last `2^16 + 22` bytes backwards for the marker.
`none` when the file is shorter than 22 bytes, when no marker is found,
or when the match is too close to EOF to decode (`struct.error`). -/
def findEOCD (A : List Nat) : Option EOCDRec :=
  if A.length < 22 then none
  else if readAt A (A.length - 22) 4 = eocdMarker then
    some (parseEOCD (readAt A (A.length - 22) 22))
  else
    let tmp := A.drop (A.length - 65558)
    match rfindMarker tmp with
    | none => none
    | some idx =>
      if idx + 22 ≤ tmp.length then some (parseEOCD (readAt tmp idx 22))
      else none

/-- `process_zip` of `explode.py`: the sidecar triple (or `none` when
no outputs are produced) and the updated blob pool. -/
def processZip (h : List Nat → List Nat) (depth : Nat) (A : List Nat)
    (pool : BlobPool) : Option Sidecars × BlobPool :=
  match findEOCD A with
  | none => (none, pool)
  | some eoa =>
    let acc := explodeLoop h depth A eoa.total_entries
      { pos := eoa.directory_offset, jump := [], stream := [], dir := [],
        pool := pool }
    (some { jump := enc64 A.length ++ enc64 eoa.directory_offset ++ acc.jump
            stream := acc.stream
            dir := acc.dir ++ A.drop acc.pos },
     acc.pool)

/-- The blob-pool component of the entry loop, as a function of the
archive cursor and the pool alone (the loop's other accumulators do
not influence it). -/
def poolRun (h : List Nat → List Nat) (depth : Nat) (A : List Nat) :
    Nat → Nat → BlobPool → BlobPool
  | 0, _, p => p
  | n + 1, pos, p =>
    let rcd := fread A pos 46
    let info := parseCDE rcd.1
    let e := processFile A info
    let rtrail := fread A rcd.2
      (info.filename_len + info.extra_field_len + info.comment_len)
    poolRun h depth A n rtrail.2 (blobPut p (blobKey h depth e.data) e.data)

/-- The compressed payloads of the entries visited by the loop. -/
def payloadRun (A : List Nat) : Nat → Nat → List (List Nat)
  | 0, _ => []
  | n + 1, pos =>
    let rcd := fread A pos 46
    let info := parseCDE rcd.1
    let e := processFile A info
    let rtrail := fread A rcd.2
      (info.filename_len + info.extra_field_len + info.comment_len)
    e.data :: payloadRun A n rtrail.2

/-- The compressed payloads `process_zip` extracts from archive `A`
(empty when no EOCD is located). -/
def zipPayloads (A : List Nat) : List (List Nat) :=
  match findEOCD A with
  | none => []
  | some eoa => payloadRun A eoa.total_entries eoa.directory_offset

/-- Explode a list of archives into one shared pool, in order. -/
def explodeAll (h : List Nat → List Nat) (depth : Nat) (archives : List (List Nat))
    (pool : BlobPool) : BlobPool :=
  archives.foldl (fun p A => (processZip h depth A p).2) pool

/-!
## Analyzer (`xzip/analyze.py`, `process_file`)

The analyzer's *Stream Hash* is the SHA-1 of a byte string assembled by
successive `hash.update` calls; `analyzeHashInput` is that byte string
(raw LFH, filename, extra field, payload, then the descriptor bytes —
the marker plus 12 bytes when the probe matches `PK\x07\x08`, else 12
bytes when `flag & 3` is nonzero, else none). -/

/-- The bytes hashed into the analyzer's Stream Hash for one entry. -/
def analyzeHashInput (A : List Nat) (info : CDERec) : List Nat :=
  let r0 := fread A info.offset 30
  let header := parseLFH r0.1
  let r1 := fread A r0.2 header.filename_len
  let r2 := fread A r1.2 header.extra_field_len
  let r3 := fread A r2.2 info.compressed_size
  let probe := fread A r3.2 4
  let descriptor :=
    if probe.1 = ddMarker then ddMarker ++ (fread A probe.2 12).1
    else if header.flag &&& 3 ≠ 0 then (fread A (probe.2 - 4) 12).1
    else []
  r0.1 ++ r1.1 ++ r2.1 ++ r3.1 ++ descriptor

/-- The bytes covered by the exploder for the same entry: raw LFH,
variable fields, payload, and the descriptor `explode.py` captures. -/
def explodeHashInput (A : List Nat) (info : CDERec) : List Nat :=
  let e := processFile A info
  e.lfhRaw ++ e.varFields ++ e.data ++ e.descriptor

/-!
## Reconstitution read path (`xzip/fs.py`, class `File`)

The machine state mirrors `File.__init__`: a logical `cursor`, an
`offset` into the current in-memory buffer, the four-state `state`
field, `streamOff` (`self.stream_offset`, `none` for Python `None`),
the stream sidecar's file position `streamPos`, the current item's
`zipHeader` and `descriptor` buffers, the open blob `dataFile`
(content and file position) with its recorded `dataLen`, the directory
sidecar position `dirPos`, and the blob path `dataName` derived from
the stream item's 20-byte digest field.

The environment holds the sidecar bytes, the blob store (total
function from sharded path to contents: the Python `IOError` on a
missing blob is outside the modelled behaviour), `filesize` and
`directory_offset` from the jump header, the sharding depth, and the
loaded seek tree.

`readinto` and `readBytes` (`File.readinto` / `File.read`) take a fuel
argument for the source's recursive retry on empty components; the
retry depth is at most 3, and fuel-exhaustion returns an empty read.
`facadeRead` is the buffered reader in front of the raw file: it loops
`readinto` until the requested count is served or a read returns no
bytes (EOF), the contract §4.4 of the specification assigns to the
facade. -/

/-- The four states of the reconstitution cursor. -/
inductive FState where
  | header
  | data
  | descriptor
  | directory
  deriving Repr, DecidableEq

/-- Mutable state of an open reconstitution file. -/
structure FileSt where
  cursor : Nat
  offset : Nat
  state : FState
  streamOff : Option Nat
  streamPos : Nat
  zipHeader : List Nat
  descriptor : List Nat
  dataFile : Option (List Nat × Nat)
  dataLen : Nat
  dirPos : Nat
  dataName : List (List Nat)
  deriving Repr, DecidableEq

/-- Immutable environment of an open reconstitution file. -/
structure FileEnv where
  stream : List Nat
  dir : List Nat
  blob : List (List Nat) → List Nat
  filesize : Nat
  dirOff : Nat
  depth : Nat
  tree : SeekTree

/-- `File._load_stream_item`: close the blob, read the 51-byte stream
item record, keep its first 30 bytes plus the variable fields as
`zip_header`, read `descriptor_len` descriptor bytes, and compute the
blob path from the digest field. -/
def loadStreamItem (env : FileEnv) (st : FileSt) : FileSt :=
  let r0 := fread env.stream st.streamPos 51
  let raw := r0.1
  let varLen := le16 raw 26 + le16 raw 28
  let r1 := fread env.stream r0.2 varLen
  let r2 := fread env.stream r1.2 (byteAt raw 30)
  { st with
    dataFile := none
    zipHeader := raw.take 30 ++ r1.1
    descriptor := r2.1
    streamPos := r2.2
    dataName := blobPath env.depth (hexDigest (readAt raw 31 20)) }

/-- `File._open_data_file`: open the blob, record its length, seek 0. -/
def openDataFile (env : FileEnv) (st : FileSt) : FileSt :=
  let c := env.blob st.dataName
  { st with dataFile := some (c, 0), dataLen := c.length }

/-- `File.__init__`: cursor 0, HEADER state, stream offset 0, then load
the first stream item. -/
def fileInit (env : FileEnv) : FileSt :=
  loadStreamItem env
    { cursor := 0, offset := 0, state := .header, streamOff := some 0,
      streamPos := 0, zipHeader := [], descriptor := [], dataFile := none,
      dataLen := 0, dirPos := 0, dataName := [] }

/-- `File.readinto`: serve one component's worth of bytes into a
buffer of size `count`, returning the bytes and the new state;
zero-byte component reads retry recursively in the successor state. -/
def readinto (env : FileEnv) : Nat → FileSt → Nat → List Nat × FileSt
  | 0, st, _ => ([], st)
  | fuel + 1, st, count =>
    if count = 0 then ([], st)
    else
      match st.state with
      | .header =>
        let hl := st.zipHeader.length
        let cur := min (st.offset + count) hl
        let chunk := readAt st.zipHeader st.offset (cur - st.offset)
        let st1 := { st with offset := cur, cursor := st.cursor + chunk.length }
        let st2 :=
          if cur = hl then
            let s := { st1 with state := .data }
            if s.dataFile.isSome then s else openDataFile env s
          else st1
        (chunk, st2)
      | .data =>
        match st.dataFile with
        | none => ([], st)
        | some (c, p) =>
          let chunk := readAt c p count
          let p' := p + chunk.length
          let st1 := { st with dataFile := some (c, p'),
                               cursor := st.cursor + chunk.length }
          let st2 :=
            if st.dataLen ≤ p' then { st1 with state := .descriptor, offset := 0 }
            else st1
          if chunk.isEmpty then readinto env fuel st2 count else (chunk, st2)
      | .descriptor =>
        let dl := st.descriptor.length
        let cur := min (st.offset + count) dl
        let chunk := readAt st.descriptor st.offset (cur - st.offset)
        let st1 := { st with offset := cur, cursor := st.cursor + chunk.length }
        let st2 :=
          if cur = dl then
            if env.dirOff ≤ st1.cursor then
              { st1 with state := .directory, dirPos := 0, streamOff := none,
                         dataFile := none }
            else
              loadStreamItem env
                { st1 with state := .header, offset := 0,
                           streamOff := some st1.streamPos }
          else st1
        if chunk.isEmpty then readinto env fuel st2 count else (chunk, st2)
      | .directory =>
        let chunk := readAt env.dir st.dirPos count
        (chunk, { st with dirPos := st.dirPos + chunk.length,
                          cursor := st.cursor + chunk.length })

/-- `File.read` for a positive `count` (the `readall` path of a
negative count is not modelled): like `readinto`, but the buffer
offset advances by the full `count`, unclamped, as in the source. -/
def readBytes (env : FileEnv) : Nat → FileSt → Nat → List Nat × FileSt
  | 0, st, _ => ([], st)
  | fuel + 1, st, count =>
    if count = 0 then ([], st)
    else
      match st.state with
      | .header =>
        let chunk := readAt st.zipHeader st.offset count
        let st1 := { st with offset := st.offset + count,
                             cursor := st.cursor + chunk.length }
        let st2 :=
          if st.zipHeader.length ≤ st1.offset then
            let s := { st1 with state := .data }
            if s.dataFile.isSome then s else openDataFile env s
          else st1
        (chunk, st2)
      | .data =>
        match st.dataFile with
        | none => ([], st)
        | some (c, p) =>
          let chunk := readAt c p count
          let p' := p + chunk.length
          let st1 := { st with dataFile := some (c, p'),
                               cursor := st.cursor + chunk.length }
          let st2 :=
            if st.dataLen ≤ p' then { st1 with state := .descriptor, offset := 0 }
            else st1
          if chunk.isEmpty then readBytes env fuel st2 count else (chunk, st2)
      | .descriptor =>
        let chunk := readAt st.descriptor st.offset count
        let st1 := { st with offset := st.offset + count,
                             cursor := st.cursor + chunk.length }
        let st2 :=
          if st.descriptor.length ≤ st1.offset then
            if env.dirOff ≤ st1.cursor then
              { st1 with state := .directory, dirPos := 0, streamOff := none,
                         dataFile := none }
            else
              loadStreamItem env
                { st1 with state := .header, offset := 0,
                           streamOff := some st1.streamPos }
          else st1
        if chunk.isEmpty then readBytes env fuel st2 count else (chunk, st2)
      | .directory =>
        let chunk := readAt env.dir st.dirPos count
        (chunk, { st with dirPos := st.dirPos + chunk.length,
                          cursor := st.cursor + chunk.length })

/-- `File.seek` with absolute positioning (the facade always seeks
absolutely): no validation of `pos` whatsoever; set the cursor, go to
the directory tail when `pos ≥ directory_offset`, otherwise locate the
item through the seek tree and position within it. -/
def fseek (env : FileEnv) (st : FileSt) (pos : Nat) : Nat × FileSt :=
  if pos = st.cursor then (pos, st)
  else
    let st0 := { st with cursor := pos }
    if env.dirOff ≤ pos then
      (pos, { st0 with dataFile := none, state := .directory,
                       streamOff := none, dirPos := pos - env.dirOff })
    else
      let zs := env.tree.find pos
      let addl := pos - zs.1
      let st1 :=
        if st0.streamOff ≠ some zs.2 then
          loadStreamItem env { st0 with streamOff := some zs.2, streamPos := zs.2 }
        else st0
      if addl < st1.zipHeader.length then
        (pos, { st1 with state := .header, offset := addl })
      else
        let addl2 := addl - st1.zipHeader.length
        let st2 := { st1 with state := .data }
        let st3 := if st2.dataFile.isSome then st2 else openDataFile env st2
        if addl2 < st3.dataLen then
          (pos, { st3 with dataFile := st3.dataFile.map fun cp => (cp.1, addl2) })
        else
          (pos, { st3 with state := .descriptor, offset := addl2 - st3.dataLen })

/-- `File.tell`. -/
def ftell (st : FileSt) : Nat := st.cursor

/-- The buffered facade in front of the raw file (§4.4: a buffered
reader must produce exactly `n` bytes or stop at EOF): loop `readinto`
until `n` bytes are accumulated or a read returns no bytes. -/
def facadeRead (env : FileEnv) : Nat → FileSt → Nat → List Nat × FileSt
  | 0, st, _ => ([], st)
  | fuel + 1, st, n =>
    if n = 0 then ([], st)
    else
      let r := readinto env 4 st n
      if r.1.isEmpty then ([], r.2)
      else
        let rest := facadeRead env fuel r.2 (n - r.1.length)
        (r.1 ++ rest.1, rest.2)

/-- Decode the jump entries following the 16-byte jump header
(`_unpack_stream(jump, JUMP_ITEM)`). -/
def jumpEntriesAux : Nat → List Nat → List (Nat × Nat)
  | 0, _ => []
  | fuel + 1, l =>
    if l.length < 16 then []
    else (le64 l 0, le64 l 8) :: jumpEntriesAux fuel (l.drop 16)

/-- All `(archive_offset, stream_offset)` jump entries of a jump
sidecar body. -/
def jumpEntries (l : List Nat) : List (Nat × Nat) := jumpEntriesAux l.length l

/-- Build a `FileEnv` from the sidecar triple and a blob store
(`ExplodedZip._exploded_info` plus `File.__init__`). -/
def mkEnv (depth : Nat) (sc : Sidecars) (blob : List (List Nat) → List Nat) :
    FileEnv :=
  { stream := sc.stream
    dir := sc.dir
    blob := blob
    filesize := le64 sc.jump 0
    dirOff := le64 sc.jump 8
    depth := depth
    tree := (SeekTree.load (jumpEntries (sc.jump.drop 16))).getD (.leaf (0, 0)) }

/-- Read a blob pool as the blob-store function (a missing blob, which
raises `IOError` in the source, reads as empty here). -/
def poolBlob (pool : BlobPool) (k : List (List Nat)) : List Nat :=
  (poolLookup pool k).getD []

/-!
## Concrete test archives

`archiveOne` is a minimal stored ZIP: one local file header
(`compressed_size = 2`, filename `a`), the two payload bytes `hi`, one
central directory entry at offset 33, and the EOCD record
(`directory_offset = 33`, 1 entry); 102 bytes in all.

`archiveStream` is a minimal streamed ZIP: the LFH has flag bit 3 set
and zero sizes, the 2-byte payload is followed by an unmarked 12-byte
data descriptor, and the central directory entry carries the real
`compressed_size = 2`; 114 bytes in all.

`digestTest` stands in for SHA-1 in concrete evaluations (an exactly
20-byte digest, as `sha1().digest()` is). -/

/-- A 20-byte stand-in digest function for concrete evaluation. -/
def digestTest : List Nat → List Nat := fun l => padTo 20 l

/-- Minimal stored archive: `hello`-style single entry, payload `hi`. -/
def archiveOne : List Nat :=
  [80, 75, 3, 4, 20, 0, 0, 0, 0, 0, 0, 0, 0, 0, 0, 0, 0, 0,
   2, 0, 0, 0, 2, 0, 0, 0, 1, 0, 0, 0] ++
  [97] ++ [104, 105] ++
  [80, 75, 1, 2, 20, 0, 20, 0, 0, 0, 0, 0, 0, 0, 0, 0, 0, 0, 0, 0,
   2, 0, 0, 0, 2, 0, 0, 0, 1, 0, 0, 0, 0, 0, 0, 0, 0, 0, 0, 0,
   0, 0, 0, 0, 0, 0] ++
  [97] ++
  [80, 75, 5, 6, 0, 0, 0, 0, 1, 0, 1, 0, 47, 0, 0, 0, 33, 0, 0, 0, 0, 0]

/-- Minimal streamed archive: flag bit 3 set, LFH sizes zero, unmarked
12-byte data descriptor after the payload, CD `compressed_size = 2`. -/
def archiveStream : List Nat :=
  [80, 75, 3, 4, 20, 0, 8, 0, 0, 0, 0, 0, 0, 0, 0, 0, 0, 0,
   0, 0, 0, 0, 0, 0, 0, 0, 1, 0, 0, 0] ++
  [98] ++ [7, 9] ++ [1, 2, 3, 4, 2, 0, 0, 0, 2, 0, 0, 0] ++
  [80, 75, 1, 2, 20, 0, 20, 0, 8, 0, 0, 0, 0, 0, 0, 0, 0, 0, 0, 0,
   2, 0, 0, 0, 2, 0, 0, 0, 1, 0, 0, 0, 0, 0, 0, 0, 0, 0, 0, 0,
   0, 0, 0, 0, 0, 0] ++
  [98] ++
  [80, 75, 5, 6, 0, 0, 0, 0, 1, 0, 1, 0, 47, 0, 0, 0, 45, 0, 0, 0, 0, 0]

/-- The central directory entry of `archiveStream` (at offset 45). -/
def infoStream : CDERec := parseCDE (readAt archiveStream 45 46)

/-- `archiveOne` exploded into an empty pool. -/
def exOne : Option Sidecars × BlobPool := processZip digestTest 0 archiveOne []

/-- The sidecars of the exploded `archiveOne`. -/
def scOne : Sidecars := exOne.1.getD { jump := [], stream := [], dir := [] }

/-- The reconstitution environment for the exploded `archiveOne`. -/
def envOne : FileEnv := mkEnv 0 scOne (poolBlob exOne.2)

/-- The position just past an entry's compressed payload, as
`process_file` computes it (LFH, variable fields, then
`info.compressed_size` payload bytes, each read clamped at EOF). -/
def payloadEnd (A : List Nat) (info : CDERec) : Nat :=
  let r0 := fread A info.offset 30
  let header := parseLFH r0.1
  let r1 := fread A r0.2 (header.filename_len + header.extra_field_len)
  (fread A r1.2 info.compressed_size).2

/-- Jump entries of a four-entry archive (seek-tree witness input). -/
def jumpWitness : List (Nat × Nat) := [(0, 0), (10, 51), (20, 102), (31, 153)]

/-- Extent function of the `jumpWitness` entries. -/
def extWitness (e : Nat × Nat) : Nat :=
  if e.1 = 0 then 10 else if e.1 = 10 then 10 else if e.1 = 20 then 11 else 12

/-- The tree `SeekTree.load` builds from `jumpWitness`. -/
def treeWitness : SeekTree :=
  SeekTree.node 20
    (SeekTree.node 10 (SeekTree.leaf (0, 0)) (SeekTree.leaf (10, 51)))
    (SeekTree.node 31 (SeekTree.leaf (20, 102)) (SeekTree.leaf (31, 153)))

theorem SeekTree.pairUp_length (l : List (SeekTree × Nat)) :
    (pairUp l).length = (l.length + 1) / 2 := by
  match l with
  | [] => rfl
  | [x] => simp [pairUp]
  | a :: b :: rest =>
    simp only [pairUp, List.length_cons, pairUp_length rest]
    omega

theorem SeekTree.loadLoop_length (n : Nat) (l : List (SeekTree × Nat))
    (h : l.length ≤ n) : (loadLoop n l).length ≤ 1 := by
  induction n generalizing l with
  | zero => simp only [loadLoop]; omega
  | succ n ih =>
    simp only [loadLoop]
    split
    · have hp := pairUp_length l
      exact ih _ (by omega)
    · omega

theorem lastLEAux_cons_le {d e : Nat × Nat} {rest : List (Nat × Nat)} {o : Nat}
    (h : e.1 ≤ o) : lastLEAux d (e :: rest) o = lastLEAux e rest o := by
  simp [lastLEAux, Nat.not_lt.mpr h]

theorem lastLEAux_append_high {d : Nat × Nat} {xs : List (Nat × Nat)}
    {y : Nat × Nat} {tl : List (Nat × Nat)} {o : Nat} (h : o < y.1) :
    lastLEAux d (xs ++ y :: tl) o = lastLEAux d xs o := by
  induction xs generalizing d with
  | nil => simp [lastLEAux, h]
  | cons x rest ih =>
    by_cases hx : o < x.1
    · simp [lastLEAux, hx]
    · simp only [List.cons_append, lastLEAux, if_neg hx]
      exact ih

theorem lastLEAux_append_low {d : Nat × Nat} {xs ys : List (Nat × Nat)} {o : Nat}
    (h : ∀ x ∈ xs, x.1 ≤ o) :
    lastLEAux d (xs ++ ys) o = lastLEAux (lastLEAux d xs o) ys o := by
  induction xs generalizing d with
  | nil => simp [lastLEAux]
  | cons x rest ih =>
    have hx : x.1 ≤ o := h x (by simp)
    simp only [List.cons_append, lastLEAux_cons_le hx]
    exact ih fun a ha => h a (by simp [ha])

theorem headZ_append {b es : List (Nat × Nat)} (hb : b ≠ []) :
    headZ (b ++ es) = headZ b := by
  cases b with
  | nil => exact absurd rfl hb
  | cons e rest => rfl

theorem headZ_mem {b : List (Nat × Nat)} (hb : b ≠ []) :
    ∃ e ∈ b, e.1 = headZ b := by
  cases b with
  | nil => exact absurd rfl hb
  | cons e rest => exact ⟨e, by simp, rfl⟩

theorem pairUp_covers_node {n : Nat}
    (ih : ∀ {lv : List (SeekTree × Nat)} {es : List (Nat × Nat)},
      lv.length ≤ n → ZSorted es → Covers lv es →
      Covers (SeekTree.pairUp lv) es)
    {t₁ : SeekTree} {b₁ : List (Nat × Nat)} {t₂ : SeekTree}
    {b₂ es' : List (Nat × Nat)} {lv' : List (SeekTree × Nat)}
    (hlen : ((t₁, headZ b₁) :: (t₂, headZ b₂) :: lv').length ≤ n + 1)
    (hs : ZSorted (b₁ ++ (b₂ ++ es')))
    (hb₁ : b₁ ≠ [])
    (hf₁ : ∀ o, headZ b₁ ≤ o → t₁.find o = lastLE b₁ o)
    (hb₂ : b₂ ≠ [])
    (hf₂ : ∀ o, headZ b₂ ≤ o → t₂.find o = lastLE b₂ o)
    (hrest : Covers lv' es') :
    Covers (SeekTree.pairUp ((t₁, headZ b₁) :: (t₂, headZ b₂) :: lv'))
      (b₁ ++ (b₂ ++ es')) := by
    -- the paired node: key = min of the right block, block = b₁ ++ b₂
    obtain ⟨y, tl, hy⟩ : ∃ y tl, b₂ = y :: tl := by
      cases b₂ with
      | nil => exact absurd rfl hb₂
      | cons y tl => exact ⟨y, tl, rfl⟩
    subst hy
    have hhead : headZ (y :: tl) = y.1 := rfl
    have hcross : ∀ x ∈ b₁, x.1 < y.1 := by
      intro x hx
      exact (List.pairwise_append.mp hs).2.2 x hx y (by simp)
    have hfind : ∀ o, headZ (b₁ ++ y :: tl) ≤ o →
        (SeekTree.node (headZ (y :: tl)) t₁ t₂).find o = lastLE (b₁ ++ y :: tl) o := by
      intro o ho
      rw [headZ_append hb₁] at ho
      by_cases hcase : o < y.1
      · -- offset in the left block: the right block is out of range
        simp only [SeekTree.find, hhead, if_pos hcase, lastLE,
          lastLEAux_append_high hcase]
        exact hf₁ o ho
      · -- offset at or beyond the right block's minimum
        push_neg at hcase
        have hlow : ∀ x ∈ b₁, x.1 ≤ o := fun x hx =>
          Nat.le_of_lt (Nat.lt_of_lt_of_le (hcross x hx) hcase)
        simp only [SeekTree.find, hhead, if_neg (Nat.not_lt.mpr hcase)]
        rw [lastLE, lastLEAux_append_low hlow, lastLEAux_cons_le hcase]
        have h2 := hf₂ o hcase
        rw [h2, lastLE, lastLEAux_cons_le hcase]
    have hsorted' : ZSorted es' := by
      have := (List.pairwise_append.mp hs).2.1
      exact (List.pairwise_append.mp this).2.1
    have hrec : Covers (SeekTree.pairUp lv') es' := by
      simp only [List.length_cons] at hlen
      exact ih (by omega) hsorted' hrest
    have h2 : Covers ((SeekTree.node (headZ (y :: tl)) t₁ t₂,
        headZ (b₁ ++ y :: tl)) :: SeekTree.pairUp lv')
        ((b₁ ++ y :: tl) ++ es') :=
      .cons (by simp [hb₁]) hfind hrec
    rw [headZ_append hb₁] at h2
    rw [List.append_assoc] at h2
    exact h2

theorem pairUp_covers_aux : ∀ (n : Nat) {lv : List (SeekTree × Nat)}
    {es : List (Nat × Nat)}, lv.length ≤ n → ZSorted es → Covers lv es →
    Covers (SeekTree.pairUp lv) es := by
  intro n
  induction n with
  | zero =>
    intro lv es hlen hs h
    cases h with
    | nil => exact .nil
    | cons hb hf hrest => simp at hlen
  | succ n ih =>
    intro lv es hlen hs h
    cases h with
    | nil => exact .nil
    | cons hb₁ hf₁ hrest₁ =>
      rename_i t₁ b₁ es₁ lv₁
      cases hrest₁ with
      | nil => exact .cons hb₁ hf₁ .nil
      | cons hb₂ hf₂ hrest =>
        rename_i t₂ b₂ es' lv'
        exact pairUp_covers_node ih hlen hs hb₁ hf₁ hb₂ hf₂ hrest

theorem pairUp_covers {lv : List (SeekTree × Nat)} {es : List (Nat × Nat)}
    (hs : ZSorted es) (h : Covers lv es) : Covers (SeekTree.pairUp lv) es :=
  pairUp_covers_aux lv.length (Nat.le_refl _) hs h

theorem loadLoop_covers (n : Nat) {lv : List (SeekTree × Nat)}
    {es : List (Nat × Nat)} (hs : ZSorted es) (h : Covers lv es) :
    Covers (SeekTree.loadLoop n lv) es := by
  induction n generalizing lv with
  | zero => exact h
  | succ n ih =>
    simp only [SeekTree.loadLoop]
    split
    · exact ih (pairUp_covers hs h)
    · exact pairUp_covers hs h

theorem covers_leaves : ∀ es : List (Nat × Nat),
    Covers (es.map fun e => (SeekTree.leaf e, e.1)) es
  | [] => .nil
  | e :: rest => by
    have h := @Covers.cons (SeekTree.leaf e) [e] rest
      (rest.map fun e => (SeekTree.leaf e, e.1))
      (by simp)
      (fun o ho => by
        have he : e.1 ≤ o := ho
        simp [SeekTree.find, lastLE, lastLEAux, Nat.not_lt.mpr he])
      (covers_leaves rest)
    simpa using h

/-- `SeekTree.find` on a tree loaded from a sorted jump-entry sequence
answers the predecessor query. -/
theorem load_find {es : List (Nat × Nat)} {t : SeekTree}
    (hs : ZSorted es) (hload : SeekTree.load es = some t) :
    ∀ o, headZ es ≤ o → t.find o = lastLE es o := by
  intro o ho
  unfold SeekTree.load at hload
  have hcov : Covers (SeekTree.loadLoop (es.length + 1)
      (es.map fun e => (SeekTree.leaf e, e.1))) es :=
    loadLoop_covers _ hs (covers_leaves es)
  have hlen : (SeekTree.loadLoop (es.length + 1)
      (es.map fun e => (SeekTree.leaf e, e.1))).length ≤ 1 :=
    SeekTree.loadLoop_length _ _ (by simp)
  revert hload
  cases hfin : SeekTree.loadLoop (es.length + 1)
      (es.map fun e => (SeekTree.leaf e, e.1)) with
  | nil =>
    rw [hfin] at hcov
    cases hcov
    intro hload
    cases hload
  | cons x rest =>
    rw [hfin] at hcov hlen
    cases rest with
    | cons y rest' => simp at hlen
    | nil =>
      cases hcov with
      | cons hb hf hrest =>
        cases hrest
        intro hload
        simp only [List.append_nil] at *
        cases hload
        exact hf o ho

theorem tiles_sorted {ext : Nat × Nat → Nat} {es : List (Nat × Nat)} {hi : Nat}
    (hpos : ∀ e ∈ es, 0 < ext e) (h : Tiles ext es hi) : ZSorted es := by
  induction h with
  | single _ => simp [ZSorted]
  | cons hstep htail ih =>
    rename_i e e' rest hi
    have hlt : e.1 < e'.1 := by
      have := hpos e (by simp)
      omega
    have ih' := ih fun a ha => hpos a (by simp [ha])
    refine List.Pairwise.cons ?_ ih'
    intro a ha
    rcases List.mem_cons.mp ha with ha | ha
    · subst ha
      omega
    · have := (List.pairwise_cons.mp ih').1 a ha
      omega

theorem tiles_ubound {ext : Nat × Nat → Nat} {es : List (Nat × Nat)} {hi : Nat}
    (h : Tiles ext es hi) : ∀ e ∈ es, e.1 + ext e ≤ hi := by
  induction h with
  | single heq => intro e he; simp at he; subst he; omega
  | cons hstep htail ih =>
    rename_i e e' rest hi
    intro a ha
    rcases List.mem_cons.mp ha with ha | ha
    · have h1 := ih e' (by simp)
      rw [ha]
      omega
    · exact ih a ha

theorem lastLE_tiles {ext : Nat × Nat → Nat} {es : List (Nat × Nat)} {hi o : Nat}
    (h : Tiles ext es hi) (ho1 : headZ es ≤ o) (ho2 : o < hi) :
    lastLE es o ∈ es ∧ (lastLE es o).1 ≤ o ∧ o < (lastLE es o).1 + ext (lastLE es o) := by
  induction h with
  | single heq =>
    rename_i e hi
    have he : e.1 ≤ o := ho1
    simp only [lastLE, lastLEAux, if_neg (Nat.not_lt.mpr he)]
    exact ⟨by simp, he, by omega⟩
  | cons hstep htail ih =>
    rename_i e e' rest hi
    have he : e.1 ≤ o := ho1
    by_cases hcase : o < e'.1
    · have : lastLE (e :: e' :: rest) o = e := by
        simp [lastLE, lastLEAux, Nat.not_lt.mpr he, hcase]
      rw [this]
      exact ⟨by simp, he, by omega⟩
    · push_neg at hcase
      have heq : lastLE (e :: e' :: rest) o = lastLE (e' :: rest) o := by
        simp only [lastLE, lastLEAux_cons_le he, lastLEAux_cons_le hcase]
      rw [heq]
      have hres := ih hcase ho2
      exact ⟨List.mem_cons_of_mem e hres.1, hres.2⟩

theorem tiles_unique {ext : Nat × Nat → Nat} {es : List (Nat × Nat)} {hi o : Nat}
    (hpos : ∀ e ∈ es, 0 < ext e) (h : Tiles ext es hi) :
    ∀ a ∈ es, ∀ b ∈ es, a.1 ≤ o → o < a.1 + ext a → b.1 ≤ o → o < b.1 + ext b →
      a = b := by
  induction h with
  | single _ =>
    intro a ha b hb _ _ _ _
    simp at ha hb
    rw [ha, hb]
  | cons hstep htail ih =>
    rename_i e e' rest hi
    have hsorted := tiles_sorted (fun a ha => hpos a (by simp [ha])) htail
    have htailmin : ∀ b ∈ e' :: rest, e'.1 ≤ b.1 := by
      intro b hb
      rcases List.mem_cons.mp hb with hb | hb
      · subst hb
        omega
      · have := (List.pairwise_cons.mp hsorted).1 b hb
        omega
    intro a ha b hb ha1 ha2 hb1 hb2
    rcases List.mem_cons.mp ha with ha | ha <;> rcases List.mem_cons.mp hb with hb | hb
    · rw [ha, hb]
    · exfalso
      rw [ha] at ha1 ha2
      have := htailmin b hb
      omega
    · exfalso
      rw [hb] at hb1 hb2
      have := htailmin a ha
      omega
    · exact ih (fun x hx => hpos x (by simp [hx])) a ha b hb ha1 ha2 hb1 hb2

/-!
## Claim theorems
-/

/-- C2: for jump entries sorted ascending by `z_off` that tile
`[first_z, directory_offset)` (each entry's extent — `len(zip_header) +
blob length + descriptor_len` — reaching exactly to the next entry's
offset, positive extents), the tree built by `SeekTree.load` answers
`find o`, for `first_z ≤ o < directory_offset`, with the unique entry
`(z, s)` such that `z ≤ o < z + extent`. -/
theorem seekTree_find_unique {ext : Nat × Nat → Nat} {es : List (Nat × Nat)}
    {t : SeekTree} {dirOff o : Nat}
    (hload : SeekTree.load es = some t)
    (htiles : Tiles ext es dirOff)
    (hpos : ∀ e ∈ es, 0 < ext e)
    (ho1 : headZ es ≤ o) (ho2 : o < dirOff) :
    t.find o ∈ es ∧ (t.find o).1 ≤ o ∧ o < (t.find o).1 + ext (t.find o) ∧
      (∀ e ∈ es, e.1 ≤ o → o < e.1 + ext e → e = t.find o) := by
  have hs := tiles_sorted hpos htiles
  have hfind := load_find hs hload o ho1
  have hchar := lastLE_tiles htiles ho1 ho2
  rw [hfind]
  refine ⟨hchar.1, hchar.2.1, hchar.2.2, ?_⟩
  intro e he h1 h2
  exact tiles_unique hpos htiles e he (lastLE es o) hchar.1 h1 h2 hchar.2.1 hchar.2.2

/-- C2 witness: the theorem applied at offset 25 of the concrete
four-entry jump list (the containing entry is `(20, 102)`). -/
theorem seekTree_find_unique_witness :
    treeWitness.find 25 ∈ jumpWitness ∧ (treeWitness.find 25).1 ≤ 25 ∧
      25 < (treeWitness.find 25).1 + extWitness (treeWitness.find 25) ∧
      (∀ e ∈ jumpWitness, e.1 ≤ 25 → 25 < e.1 + extWitness e →
        e = treeWitness.find 25) :=
  @seekTree_find_unique extWitness jumpWitness treeWitness 43 25 (by decide)
    (Tiles.cons (by decide) (Tiles.cons (by decide)
      (Tiles.cons (by decide) (Tiles.single (by decide)))))
    (by decide) (by decide) (by decide)

/-- C4 counterexample: on the exploded `archiveOne` (`filesize = 102`),
`seek(103)` — outside `[0, filesize]` — is not rejected: it returns
103, moves the cursor to 103 and switches the state to `DIRECTORY`.
(`File.seek` contains no validation; the model is accordingly total.) -/
theorem seek_out_of_range_cex :
    envOne.filesize = 102 ∧
    (fseek envOne (fileInit envOne) 103).1 = 103 ∧
    (fseek envOne (fileInit envOne) 103).2.cursor = 103 ∧
    (fseek envOne (fileInit envOne) 103).2.state = FState.directory := by
  decide

theorem fseek_spec (env : FileEnv) (st : FileSt) (pos : Nat) :
    (fseek env st pos).1 = pos ∧ (fseek env st pos).2.cursor = pos := by
  by_cases h : pos = st.cursor
  · refine ⟨?_, ?_⟩ <;> simp [fseek, h]
  · refine ⟨?_, ?_⟩ <;>
      · simp only [fseek, if_neg h]
        repeat' split
        all_goals rfl

/-- C4 amended: `File.seek` performs no range validation at all — for
every environment, state and (nonnegative) position, including any
`pos > filesize`, it returns `pos` and sets the cursor to `pos`. -/
theorem seek_no_validation (env : FileEnv) (st : FileSt) (pos : Nat) :
    (fseek env st pos).1 = pos ∧ (fseek env st pos).2.cursor = pos :=
  fseek_spec env st pos

/-- C3 counterexample: for the streamed entry of `archiveStream`, the
central directory records `compressed_size = 2` but the stream item's
`compressed_size` field (bytes 18–21 of the packed record) is 0 — the
LFH's value, not the CD's.  The CD size does govern the payload: two
bytes are read into the blob. -/
theorem stream_item_size_cex :
    infoStream.compressed_size = 2 ∧
    (processFile archiveStream infoStream).lfh.compressed_size = 0 ∧
    le32 (streamItemBytes digestTest (processFile archiveStream infoStream)) 18 = 0 ∧
    le32 (streamItemBytes digestTest (processFile archiveStream infoStream)) 18 ≠
      infoStream.compressed_size ∧
    (processFile archiveStream infoStream).data.length = 2 := by
  decide

/-- C9 (code bug, failing input): for the streamed entry of
`archiveStream` (`flag = 8`, unmarked descriptor), the exploder
captures the 12 descriptor bytes (`flag & 8`), but the analyzer
(`flag & 3`) hashes none of them: the Stream Hash input stops at the
payload, so the two variants disagree on the hashed byte extent. -/
theorem analyze_stream_hash_cex :
    (processFile archiveStream infoStream).descriptor.length = 12 ∧
    analyzeHashInput archiveStream infoStream =
      (processFile archiveStream infoStream).lfhRaw ++
        (processFile archiveStream infoStream).varFields ++
        (processFile archiveStream infoStream).data ∧
    analyzeHashInput archiveStream infoStream ≠
      explodeHashInput archiveStream infoStream := by
  decide

/-- C1 (code bug, failing input): on the exploded `archiveOne`, a
fresh full read reproduces the archive, and `seek(31); read(1)`
correctly returns byte 31 (the first payload byte) — but after that
read, `seek(0); read(32)` through the buffered facade returns the
wrong bytes: seeking back into the current item's header leaves the
open blob at position 1, so byte 31 of the answer is `original[32]`
instead of `original[31]`. -/
theorem reconstitute_reseek_bug :
    (facadeRead envOne 8 (fileInit envOne) 102).1 = archiveOne ∧
    (facadeRead envOne 8 (fseek envOne (fileInit envOne) 31).2 1).1 =
      readAt archiveOne 31 1 ∧
    (facadeRead envOne 8
        (fseek envOne
          (facadeRead envOne 8 (fseek envOne (fileInit envOne) 31).2 1).2 0).2
        32).1 ≠
      readAt archiveOne 0 32 := by
  decide

theorem rfindMarker_eq_none {s : List Nat}
    (hno : ∀ i < s.length, readAt s i 4 ≠ eocdMarker) : rfindMarker s = none := by
  unfold rfindMarker
  have hfil : (List.range s.length).filter
      (fun i => decide (readAt s i 4 = eocdMarker)) = [] := by
    rw [List.filter_eq_nil_iff]
    intro a ha
    simp only [decide_eq_true_eq]
    exact hno a (List.mem_range.mp ha)
  rw [hfil]
  rfl

theorem findEOCD_eq_none {A : List Nat}
    (hno : ∀ i < (A.drop (A.length - 65558)).length,
      readAt (A.drop (A.length - 65558)) i 4 ≠ eocdMarker) :
    findEOCD A = none := by
  unfold findEOCD
  by_cases h22 : A.length < 22
  · simp [h22]
  · push_neg at h22
    have hfix : readAt A (A.length - 22) 4 ≠ eocdMarker := by
      have hdrop : readAt A (A.length - 22) 4 =
          readAt (A.drop (A.length - 65558))
            (A.length - 22 - (A.length - 65558)) 4 := by
        unfold readAt
        rw [List.drop_drop]
        have hidx : A.length - 65558 + (A.length - 22 - (A.length - 65558)) =
            A.length - 22 := by omega
        rw [hidx]
      rw [hdrop]
      apply hno
      rw [List.length_drop]
      omega
    rw [if_neg (by omega), if_neg hfix]
    simp only [rfindMarker_eq_none hno]

/-- C6: when the EOCD marker occurs nowhere in the scanned region (the
last `2^16 + 22` bytes — the whole file when shorter), `process_zip`
produces no outputs: no sidecars and an unchanged blob pool.  (The
`meta/` and `data/` directories are only created after an EOCD is
found, so none appear either.) -/
theorem process_zip_no_marker (h : List Nat → List Nat) (depth : Nat)
    (A : List Nat) (pool : BlobPool)
    (hno : ∀ i < (A.drop (A.length - 65558)).length,
      readAt (A.drop (A.length - 65558)) i 4 ≠ eocdMarker) :
    processZip h depth A pool = (none, pool) := by
  unfold processZip
  rw [findEOCD_eq_none hno]

/-- C6 witness: 30 bytes of noise produce no outputs. -/
theorem process_zip_no_marker_witness :
    processZip (fun l => l) 0 (List.replicate 30 7) [] = (none, []) :=
  process_zip_no_marker (fun l => l) 0 (List.replicate 30 7) [] (by decide)

theorem explodeLoop_pool_run (h : List Nat → List Nat) (depth : Nat)
    (A : List Nat) : ∀ (n : Nat) (acc : ExplodeAcc),
    (explodeLoop h depth A n acc).pool = poolRun h depth A n acc.pos acc.pool
  | 0, _ => rfl
  | n + 1, acc => by
    rw [explodeLoop, poolRun]
    exact explodeLoop_pool_run h depth A n (explodeStep h depth A acc)

theorem explodeStep_pool_swap (h : List Nat → List Nat) (depth : Nat)
    (A : List Nat) (acc : ExplodeAcc) (p : BlobPool) :
    explodeStep h depth A { acc with pool := p } =
      { explodeStep h depth A acc with
        pool := (explodeStep h depth A { acc with pool := p }).pool } := rfl

theorem explodeLoop_sidecars (h : List Nat → List Nat) (depth : Nat)
    (A : List Nat) : ∀ (n : Nat) (acc : ExplodeAcc) (p : BlobPool),
    ((explodeLoop h depth A n { acc with pool := p }).pos =
        (explodeLoop h depth A n acc).pos) ∧
    ((explodeLoop h depth A n { acc with pool := p }).jump =
        (explodeLoop h depth A n acc).jump) ∧
    ((explodeLoop h depth A n { acc with pool := p }).stream =
        (explodeLoop h depth A n acc).stream) ∧
    ((explodeLoop h depth A n { acc with pool := p }).dir =
        (explodeLoop h depth A n acc).dir)
  | 0, _, _ => ⟨rfl, rfl, rfl, rfl⟩
  | n + 1, acc, p => by
    rw [explodeLoop, explodeLoop, explodeStep_pool_swap]
    exact explodeLoop_sidecars h depth A n (explodeStep h depth A acc) _

theorem poolRun_foldl (h : List Nat → List Nat) (depth : Nat) (A : List Nat) :
    ∀ (n pos : Nat) (p : BlobPool),
    poolRun h depth A n pos p =
      (payloadRun A n pos).foldl (fun q d => blobPut q (blobKey h depth d) d) p
  | 0, _, _ => rfl
  | n + 1, pos, p => by
    rw [poolRun, payloadRun, List.foldl_cons]
    exact poolRun_foldl h depth A n _ _

theorem blobPut_lookup_preserved {p : BlobPool} {k k' : List (List Nat)}
    {c v : List Nat} (hv : poolLookup p k = some v) :
    poolLookup (blobPut p k' c) k = some v := by
  unfold blobPut
  cases hlk : poolLookup p k' with
  | some _ => exact hv
  | none =>
    simp only [poolLookup]
    split
    · rename_i heq
      rw [heq] at hlk
      rw [hlk] at hv
      cases hv
    · exact hv

theorem blobPut_isSome_mono {p : BlobPool} {k k' : List (List Nat)}
    {c : List Nat} (hk : (poolLookup p k).isSome) :
    (poolLookup (blobPut p k' c) k).isSome := by
  cases hv : poolLookup p k with
  | none => rw [hv] at hk; cases hk
  | some v => rw [blobPut_lookup_preserved hv]; rfl

theorem blobPut_of_isSome {p : BlobPool} {k : List (List Nat)} {c : List Nat}
    (hk : (poolLookup p k).isSome) : blobPut p k c = p := by
  unfold blobPut
  cases hlk : poolLookup p k with
  | some _ => rfl
  | none => rw [hlk] at hk; cases hk

theorem blobPut_isSome_self (p : BlobPool) (k : List (List Nat)) (c : List Nat) :
    (poolLookup (blobPut p k c) k).isSome := by
  unfold blobPut
  cases hlk : poolLookup p k with
  | some v => rw [hlk]; rfl
  | none => simp [poolLookup]

theorem foldPut_lookup_preserved (h : List Nat → List Nat) (depth : Nat)
    (ds : List (List Nat)) : ∀ (p : BlobPool) (k : List (List Nat))
    (v : List Nat), poolLookup p k = some v →
    poolLookup (ds.foldl (fun q d => blobPut q (blobKey h depth d) d) p) k =
      some v := by
  induction ds with
  | nil => intro p k v hv; exact hv
  | cons d rest ih =>
    intro p k v hv
    rw [List.foldl_cons]
    exact ih _ _ _ (blobPut_lookup_preserved hv)

theorem foldPut_isSome_mono (h : List Nat → List Nat) (depth : Nat)
    (ds : List (List Nat)) {p : BlobPool} {k : List (List Nat)}
    (hk : (poolLookup p k).isSome) :
    (poolLookup (ds.foldl (fun q d => blobPut q (blobKey h depth d) d) p)
      k).isSome := by
  cases hv : poolLookup p k with
  | none => rw [hv] at hk; cases hk
  | some v => rw [foldPut_lookup_preserved h depth ds p k v hv]; rfl

theorem foldPut_mem (h : List Nat → List Nat) (depth : Nat)
    (ds : List (List Nat)) : ∀ (p : BlobPool) (d : List Nat), d ∈ ds →
    (poolLookup (ds.foldl (fun q d => blobPut q (blobKey h depth d) d) p)
      (blobKey h depth d)).isSome := by
  induction ds with
  | nil => intro p d hd; cases hd
  | cons a rest ih =>
    intro p d hd
    rw [List.foldl_cons]
    rcases List.mem_cons.mp hd with hd | hd
    · subst hd
      exact foldPut_isSome_mono h depth rest (blobPut_isSome_self p _ d)
    · exact ih _ d hd

theorem foldPut_stable (h : List Nat → List Nat) (depth : Nat)
    (ds : List (List Nat)) : ∀ (p : BlobPool),
    (∀ d ∈ ds, (poolLookup p (blobKey h depth d)).isSome) →
    ds.foldl (fun q d => blobPut q (blobKey h depth d) d) p = p := by
  induction ds with
  | nil => intro p _; rfl
  | cons a rest ih =>
    intro p hall
    rw [List.foldl_cons, blobPut_of_isSome (hall a (by simp))]
    exact ih p fun d hd => hall d (by simp [hd])

/-- The blob pool after `process_zip` is the fold of content-addressed
puts of the archive's payloads over the incoming pool. -/
theorem processZip_pool (h : List Nat → List Nat) (depth : Nat) (A : List Nat)
    (pool : BlobPool) :
    (processZip h depth A pool).2 =
      (zipPayloads A).foldl (fun q d => blobPut q (blobKey h depth d) d) pool := by
  unfold processZip zipPayloads
  cases hf : findEOCD A with
  | none => rfl
  | some eoa =>
    simp only []
    rw [explodeLoop_pool_run, poolRun_foldl]

/-- C7: exploding the same archive twice into the same base is
idempotent — the second run produces byte-identical sidecars (or
equally declines), and the blob pool is unchanged: no blob is added,
removed, or modified. -/
theorem explode_idempotent (h : List Nat → List Nat) (depth : Nat)
    (A : List Nat) (pool : BlobPool) :
    (processZip h depth A (processZip h depth A pool).2).1 =
        (processZip h depth A pool).1 ∧
    (processZip h depth A (processZip h depth A pool).2).2 =
        (processZip h depth A pool).2 := by
  constructor
  · -- the sidecars do not depend on the incoming pool
    have hsc : ∀ p p' : BlobPool,
        (processZip h depth A p').1 = (processZip h depth A p).1 := by
      intro p p'
      unfold processZip
      cases hf : findEOCD A with
      | none => rfl
      | some eoa =>
        simp only [Option.some.injEq]
        have hside := explodeLoop_sidecars h depth A eoa.total_entries
          { pos := eoa.directory_offset, jump := [], stream := [], dir := [],
            pool := p } p'
        obtain ⟨h1, h2, h3, h4⟩ := hside
        rw [Sidecars.mk.injEq]
        exact ⟨by rw [h2], by rw [h3], by rw [h4, h1]⟩
    exact hsc pool (processZip h depth A pool).2
  · -- the second run's puts all hit existing blobs
    rw [processZip_pool, processZip_pool]
    exact foldPut_stable h depth (zipPayloads A) _
      fun d hd => foldPut_mem h depth (zipPayloads A) pool d hd

theorem hexDigest_cons (a : Nat) (l : List Nat) :
    hexDigest (a :: l) = a / 16 :: a % 16 :: hexDigest l := rfl

theorem hexDigest_injective : Function.Injective hexDigest := by
  intro x
  induction x with
  | nil =>
    intro y hxy
    cases y with
    | nil => rfl
    | cons b m => simp [hexDigest] at hxy
  | cons a l ih =>
    intro y hxy
    cases y with
    | nil => simp [hexDigest] at hxy
    | cons b m =>
      rw [hexDigest_cons, hexDigest_cons] at hxy
      injection hxy with h1 h2
      injection h2 with h2 h3
      have hab : a = b := by omega
      rw [hab, ih h3]

theorem getLast?_append_singleton {α : Type} (l : List α) (a : α) :
    (l ++ [a]).getLast? = some a := by
  simp

theorem blobKey_injective (h : List Nat → List Nat) (depth : Nat)
    (hinj : Function.Injective h) : Function.Injective (blobKey h depth) := by
  intro x y hxy
  unfold blobKey blobPath at hxy
  have hlast := congrArg List.getLast? hxy
  rw [getLast?_append_singleton, getLast?_append_singleton] at hlast
  injection hlast with hlast
  exact hinj (hexDigest_injective hlast)

theorem poolLookup_mem : ∀ {p : BlobPool} {k : List (List Nat)} {c : List Nat},
    poolLookup p k = some c → (k, c) ∈ p := by
  intro p
  induction p with
  | nil => intro k c hv; cases hv
  | cons kc rest ih =>
    intro k c hv
    obtain ⟨k', c'⟩ := kc
    rw [poolLookup] at hv
    split at hv
    · rename_i heq
      injection hv with hv
      rw [← heq, ← hv]
      exact List.mem_cons_self _ _
    · exact List.mem_cons_of_mem _ (ih hv)

theorem poolLookup_isSome_of_mem_keys :
    ∀ {p : BlobPool} {k : List (List Nat)}, k ∈ p.map Prod.fst →
      (poolLookup p k).isSome := by
  intro p
  induction p with
  | nil => intro k hk; simp at hk
  | cons kc rest ih =>
    intro k hk
    obtain ⟨k', c'⟩ := kc
    rw [poolLookup]
    split
    · rfl
    · rename_i hne
      simp only [List.map_cons, List.mem_cons] at hk
      rcases hk with hk | hk
      · exact absurd hk.symm hne
      · exact ih hk

theorem blobPut_keys_nodup {p : BlobPool} {k : List (List Nat)} {c : List Nat}
    (hnd : (p.map Prod.fst).Nodup) : ((blobPut p k c).map Prod.fst).Nodup := by
  unfold blobPut
  cases hlk : poolLookup p k with
  | some _ => exact hnd
  | none =>
    simp only [List.map_cons]
    refine List.Nodup.cons ?_ hnd
    intro hkmem
    have := poolLookup_isSome_of_mem_keys hkmem
    rw [hlk] at this
    cases this

theorem foldPut_keys_nodup (h : List Nat → List Nat) (depth : Nat)
    (ds : List (List Nat)) : ∀ {p : BlobPool}, (p.map Prod.fst).Nodup →
    ((ds.foldl (fun q d => blobPut q (blobKey h depth d) d) p).map
      Prod.fst).Nodup := by
  induction ds with
  | nil => intro p hnd; exact hnd
  | cons a rest ih =>
    intro p hnd
    rw [List.foldl_cons]
    exact ih (blobPut_keys_nodup hnd)

theorem blobPut_consistent (h : List Nat → List Nat) (depth : Nat)
    {p : BlobPool} (hc : ∀ kc ∈ p, kc.1 = blobKey h depth kc.2)
    (d : List Nat) :
    ∀ kc ∈ blobPut p (blobKey h depth d) d, kc.1 = blobKey h depth kc.2 := by
  unfold blobPut
  cases poolLookup p (blobKey h depth d) with
  | some _ => exact hc
  | none =>
    intro kc hkc
    rcases List.mem_cons.mp hkc with hkc | hkc
    · rw [hkc]
    · exact hc kc hkc

theorem foldPut_consistent (h : List Nat → List Nat) (depth : Nat)
    (ds : List (List Nat)) : ∀ {p : BlobPool},
    (∀ kc ∈ p, kc.1 = blobKey h depth kc.2) →
    ∀ kc ∈ ds.foldl (fun q d => blobPut q (blobKey h depth d) d) p,
      kc.1 = blobKey h depth kc.2 := by
  induction ds with
  | nil => intro p hc; exact hc
  | cons a rest ih =>
    intro p hc
    rw [List.foldl_cons]
    exact ih (blobPut_consistent h depth hc a)

theorem explodeAll_cons (h : List Nat → List Nat) (depth : Nat) (A : List Nat)
    (rest : List (List Nat)) (pool : BlobPool) :
    explodeAll h depth (A :: rest) pool =
      explodeAll h depth rest (processZip h depth A pool).2 := rfl

theorem explodeAll_lookup_preserved (h : List Nat → List Nat) (depth : Nat)
    (archives : List (List Nat)) : ∀ {p : BlobPool} {k : List (List Nat)}
    {v : List Nat}, poolLookup p k = some v →
    poolLookup (explodeAll h depth archives p) k = some v := by
  induction archives with
  | nil => intro p k v hv; exact hv
  | cons A rest ih =>
    intro p k v hv
    rw [explodeAll_cons]
    refine ih ?_
    rw [processZip_pool]
    exact foldPut_lookup_preserved h depth (zipPayloads A) p k v hv

theorem explodeAll_consistent (h : List Nat → List Nat) (depth : Nat)
    (archives : List (List Nat)) : ∀ {p : BlobPool},
    (∀ kc ∈ p, kc.1 = blobKey h depth kc.2) →
    ∀ kc ∈ explodeAll h depth archives p, kc.1 = blobKey h depth kc.2 := by
  induction archives with
  | nil => intro p hc; exact hc
  | cons A rest ih =>
    intro p hc
    rw [explodeAll_cons]
    refine ih ?_
    rw [processZip_pool]
    exact foldPut_consistent h depth (zipPayloads A) hc

theorem explodeAll_keys_nodup (h : List Nat → List Nat) (depth : Nat)
    (archives : List (List Nat)) : ∀ {p : BlobPool}, (p.map Prod.fst).Nodup →
    ((explodeAll h depth archives p).map Prod.fst).Nodup := by
  induction archives with
  | nil => intro p hnd; exact hnd
  | cons A rest ih =>
    intro p hnd
    rw [explodeAll_cons]
    refine ih ?_
    rw [processZip_pool]
    exact foldPut_keys_nodup h depth (zipPayloads A) hnd

/-- C8: with an injective digest (SHA-1 collision-freeness) and an
initially consistent pool, after exploding any set of archives into
the same base: (i) for every entry with compressed payload `P`, the
blob at the depth-`D` sharded path of `hex(SHA1(P))` exists and
contains exactly `P`; (ii) existing blobs are never modified or
deleted; (iii) blob keys remain duplicate-free — a blob is created at
most once per unique digest across all archives. -/
theorem blob_store_correct (h : List Nat → List Nat) (depth : Nat)
    (archives : List (List Nat)) (pool : BlobPool)
    (hinj : Function.Injective h)
    (hcons : ∀ kc ∈ pool, kc.1 = blobKey h depth kc.2)
    (hnd : (pool.map Prod.fst).Nodup) :
    (∀ A ∈ archives, ∀ P ∈ zipPayloads A,
      poolLookup (explodeAll h depth archives pool) (blobKey h depth P) =
        some P) ∧
    (∀ k v, poolLookup pool k = some v →
      poolLookup (explodeAll h depth archives pool) k = some v) ∧
    ((explodeAll h depth archives pool).map Prod.fst).Nodup := by
  refine ⟨?_, ?_, explodeAll_keys_nodup h depth archives hnd⟩
  · induction archives generalizing pool with
    | nil => intro A hA; cases hA
    | cons A0 rest ih =>
      intro A hA P hP
      rw [explodeAll_cons]
      rcases List.mem_cons.mp hA with hA | hA
      · subst hA
        -- after this archive's own run the blob exists and is exactly P
        have hsome : (poolLookup (processZip h depth A pool).2
            (blobKey h depth P)).isSome := by
          rw [processZip_pool]
          exact foldPut_mem h depth (zipPayloads A) pool P hP
        obtain ⟨c, hcv⟩ := Option.isSome_iff_exists.mp hsome
        have hcons1 : ∀ kc ∈ (processZip h depth A pool).2,
            kc.1 = blobKey h depth kc.2 := by
          rw [processZip_pool]
          exact foldPut_consistent h depth (zipPayloads A) hcons
        have hkc := hcons1 _ (poolLookup_mem hcv)
        have hcP : c = P := blobKey_injective h depth hinj hkc.symm
        rw [hcP] at hcv
        exact explodeAll_lookup_preserved h depth rest hcv
      · have hcons1 : ∀ kc ∈ (processZip h depth A0 pool).2,
            kc.1 = blobKey h depth kc.2 := by
          rw [processZip_pool]
          exact foldPut_consistent h depth (zipPayloads A0) hcons
        have hnd1 : ((processZip h depth A0 pool).2.map Prod.fst).Nodup := by
          rw [processZip_pool]
          exact foldPut_keys_nodup h depth (zipPayloads A0) hnd
        exact ih _ hcons1 hnd1 A hA P hP
  · intro k v hv
    exact explodeAll_lookup_preserved h depth archives hv

/-- C8 witness: exploding `archiveOne` with the identity digest into an
empty pool stores its payload `hi` under its key, preserves (vacuously)
prior blobs, and keeps keys duplicate-free. -/
theorem blob_store_correct_witness :
    (∀ A ∈ [archiveOne], ∀ P ∈ zipPayloads A,
      poolLookup (explodeAll (fun l => l) 0 [archiveOne] [])
        (blobKey (fun l => l) 0 P) = some P) ∧
    (∀ k v, poolLookup [] k = some v →
      poolLookup (explodeAll (fun l => l) 0 [archiveOne] []) k = some v) ∧
    ((explodeAll (fun l => l) 0 [archiveOne] []).map Prod.fst).Nodup :=
  blob_store_correct (fun l => l) 0 [archiveOne] [] (fun _ _ hab => hab)
    (by simp) (by simp)

theorem byteAt_append_left {xs ys : List Nat} {i : Nat} (h : i < xs.length) :
    byteAt (xs ++ ys) i = byteAt xs i :=
  List.getD_append xs ys 0 i h

theorem byteAt_append_right {xs ys : List Nat} {i : Nat} (h : xs.length ≤ i) :
    byteAt (xs ++ ys) i = byteAt ys (i - xs.length) :=
  List.getD_append_right xs ys 0 i h

theorem readAt_length (s : List Nat) (p n : Nat) :
    (readAt s p n).length = min n (s.length - p) := by
  simp [readAt]

theorem readAt_length_of_le {s : List Nat} {p n : Nat} (h : p + n ≤ s.length) :
    (readAt s p n).length = n := by
  rw [readAt_length]
  omega

theorem readAt_subset {s : List Nat} {p n : Nat} :
    ∀ b ∈ readAt s p n, b ∈ s := fun _ hb =>
  ((List.take_sublist _ _).trans (List.drop_sublist _ _)).mem hb

theorem byteAt_lt {s : List Nat} (i : Nat) (h : ∀ b ∈ s, b < 256) :
    byteAt s i < 256 := by
  by_cases hi : i < s.length
  · rw [byteAt, List.getD_eq_getElem s 0 hi]
    exact h _ (List.getElem_mem hi)
  · rw [byteAt, List.getD_eq_default _ _ (by omega)]
    omega

theorem padTo_length (n : Nat) (s : List Nat) : (padTo n s).length = n := by
  simp [padTo]

theorem encodeLFH_length (r : LFHRec) : (encodeLFH r).length = 30 := by
  simp [encodeLFH, enc16, enc32, padTo_length]

theorem loadStreamItem_cursor (env : FileEnv) (st : FileSt) :
    (loadStreamItem env st).cursor = st.cursor := rfl

theorem openDataFile_cursor (env : FileEnv) (st : FileSt) :
    (openDataFile env st).cursor = st.cursor := rfl

theorem readinto_cursor (env : FileEnv) : ∀ (fuel : Nat) (st : FileSt)
    (count : Nat), ((readinto env fuel st count).2).cursor =
      st.cursor + ((readinto env fuel st count).1).length := by
  intro fuel
  induction fuel with
  | zero => intro st count; simp [readinto]
  | succ n ih =>
    intro st count
    rw [readinto]
    by_cases hc : count = 0
    · simp [hc]
    · rw [if_neg hc]
      cases hst : st.state with
      | header =>
        dsimp only
        split
        · split
          · rfl
          · simp [openDataFile]
        · rfl
      | data =>
        dsimp only
        cases hdf : st.dataFile with
        | none => simp
        | some cp =>
          dsimp only
          split
          · -- empty chunk: recursive retry
            rename_i hempty
            rw [ih]
            have hlen : (readAt cp.1 cp.2 count).length = 0 :=
              List.isEmpty_iff_length_eq_zero.mp hempty
            split <;> simp [hlen]
          · split <;> rfl
      | descriptor =>
        dsimp only
        split
        · -- empty chunk: recursive retry
          rename_i hempty
          rw [ih]
          have hlen : (readAt st.descriptor st.offset
              (min (st.offset + count) st.descriptor.length - st.offset)).length
              = 0 := List.isEmpty_iff_length_eq_zero.mp hempty
          split
          · split <;> simp [hlen, loadStreamItem_cursor]
          · simp [hlen]
        · split
          · split
            · rfl
            · simp [loadStreamItem_cursor]
          · rfl
      | directory => rfl

theorem readBytes_cursor (env : FileEnv) : ∀ (fuel : Nat) (st : FileSt)
    (count : Nat), ((readBytes env fuel st count).2).cursor =
      st.cursor + ((readBytes env fuel st count).1).length := by
  intro fuel
  induction fuel with
  | zero => intro st count; simp [readBytes]
  | succ n ih =>
    intro st count
    rw [readBytes]
    by_cases hc : count = 0
    · simp [hc]
    · rw [if_neg hc]
      cases hst : st.state with
      | header =>
        dsimp only
        split
        · split
          · rfl
          · simp [openDataFile]
        · rfl
      | data =>
        dsimp only
        cases hdf : st.dataFile with
        | none => simp
        | some cp =>
          dsimp only
          split
          · rename_i hempty
            rw [ih]
            have hlen : (readAt cp.1 cp.2 count).length = 0 :=
              List.isEmpty_iff_length_eq_zero.mp hempty
            split <;> simp [hlen]
          · split <;> rfl
      | descriptor =>
        dsimp only
        split
        · rename_i hempty
          rw [ih]
          have hlen : (readAt st.descriptor st.offset count).length = 0 :=
            List.isEmpty_iff_length_eq_zero.mp hempty
          split
          · split <;> simp [hlen, loadStreamItem_cursor]
          · simp [hlen]
        · split
          · split
            · rfl
            · simp [loadStreamItem_cursor]
          · rfl
      | directory => rfl

theorem facadeRead_cursor (env : FileEnv) : ∀ (fuel : Nat) (st : FileSt)
    (n : Nat), ((facadeRead env fuel st n).2).cursor =
      st.cursor + ((facadeRead env fuel st n).1).length := by
  intro fuel
  induction fuel with
  | zero => intro st n; simp [facadeRead]
  | succ f ih =>
    intro st n
    rw [facadeRead]
    by_cases hn : n = 0
    · simp [hn]
    · rw [if_neg hn]
      dsimp only
      split
      · rename_i hempty
        have := readinto_cursor env 4 st n
        rw [this, List.isEmpty_iff_length_eq_zero.mp hempty]
        simp
      · rw [List.length_append, ih, readinto_cursor env 4 st n]
        omega

/-- C10: every `read` and `readinto` call (in every state, including
the recursive empty-component retries) advances the cursor by exactly
the number of bytes it returns; so does the buffered facade; `seek`
sets the cursor to the requested position, and `tell` reports the
cursor — after any sequence of seeks and reads, `tell()` is the
logical position of the next byte to be served. -/
theorem cursor_tracks_reads (env : FileEnv) :
    (∀ (fuel : Nat) (st : FileSt) (count : Nat),
      ((readinto env fuel st count).2).cursor =
        st.cursor + ((readinto env fuel st count).1).length) ∧
    (∀ (fuel : Nat) (st : FileSt) (count : Nat),
      ((readBytes env fuel st count).2).cursor =
        st.cursor + ((readBytes env fuel st count).1).length) ∧
    (∀ (fuel : Nat) (st : FileSt) (n : Nat),
      ((facadeRead env fuel st n).2).cursor =
        st.cursor + ((facadeRead env fuel st n).1).length) ∧
    (∀ (st : FileSt) (pos : Nat), ((fseek env st pos).2).cursor = pos) ∧
    (∀ st : FileSt, ftell st = st.cursor) :=
  ⟨readinto_cursor env, readBytes_cursor env, facadeRead_cursor env,
    fun st pos => (fseek_spec env st pos).2, fun _ => rfl⟩

theorem processFile_descriptor_eq (A : List Nat) (info : CDERec) :
    (processFile A info).descriptor =
      (if readAt A (payloadEnd A info) 4 = ddMarker then
        ddMarker ++ readAt A (payloadEnd A info +
          (readAt A (payloadEnd A info) 4).length) 12
      else if (parseLFH (readAt A info.offset 30)).flag &&& 8 ≠ 0 then
        readAt A (payloadEnd A info +
          (readAt A (payloadEnd A info) 4).length - 4) 12
      else []) := rfl

theorem processFile_lfh_eq (A : List Nat) (info : CDERec) :
    (processFile A info).lfh = parseLFH (readAt A info.offset 30) := rfl

/-- C5: for every entry, with at least 16 bytes after the payload (as
in any archive whose central directory follows its entries): the
recorded descriptor is exactly the 16 bytes `PK\x07\x08 ‖ next 12`
when the 4 bytes after the payload are the marker; otherwise exactly
the 12 bytes following the payload when flag bit 3 is set; otherwise
empty.  So `descriptor_len ∈ {0, 12, 16}`, the stream item's
`descriptor_len` byte (offset 30) records it, and exactly those bytes
are appended after the variable fields. -/
theorem descriptor_len_spec (h : List Nat → List Nat) (A : List Nat)
    (info : CDERec) (hroom : payloadEnd A info + 16 ≤ A.length) :
    (readAt A (payloadEnd A info) 4 = ddMarker →
      (processFile A info).descriptor =
        ddMarker ++ readAt A (payloadEnd A info + 4) 12 ∧
      (processFile A info).descriptor.length = 16) ∧
    (readAt A (payloadEnd A info) 4 ≠ ddMarker →
      (processFile A info).lfh.flag &&& 8 ≠ 0 →
      (processFile A info).descriptor = readAt A (payloadEnd A info) 12 ∧
      (processFile A info).descriptor.length = 12) ∧
    (readAt A (payloadEnd A info) 4 ≠ ddMarker →
      (processFile A info).lfh.flag &&& 8 = 0 →
      (processFile A info).descriptor = []) ∧
    ((processFile A info).descriptor.length = 0 ∨
      (processFile A info).descriptor.length = 12 ∨
      (processFile A info).descriptor.length = 16) ∧
    byteAt (streamItemBytes h (processFile A info)) 30 =
      (processFile A info).descriptor.length ∧
    (streamItemBytes h (processFile A info)).drop
        (51 + (processFile A info).varFields.length) =
      (processFile A info).descriptor := by
  have hplen : (readAt A (payloadEnd A info) 4).length = 4 :=
    readAt_length_of_le (by omega)
  have h1 : readAt A (payloadEnd A info) 4 = ddMarker →
      (processFile A info).descriptor =
        ddMarker ++ readAt A (payloadEnd A info + 4) 12 ∧
      (processFile A info).descriptor.length = 16 := by
    intro hm
    have hd : (processFile A info).descriptor =
        ddMarker ++ readAt A (payloadEnd A info + 4) 12 := by
      rw [processFile_descriptor_eq, if_pos hm, hplen]
    refine ⟨hd, ?_⟩
    rw [hd, List.length_append, readAt_length_of_le (by omega)]
    rfl
  have h2 : readAt A (payloadEnd A info) 4 ≠ ddMarker →
      (processFile A info).lfh.flag &&& 8 ≠ 0 →
      (processFile A info).descriptor = readAt A (payloadEnd A info) 12 ∧
      (processFile A info).descriptor.length = 12 := by
    intro hm hf
    rw [processFile_lfh_eq] at hf
    have hd : (processFile A info).descriptor =
        readAt A (payloadEnd A info) 12 := by
      rw [processFile_descriptor_eq, if_neg hm, if_pos hf, hplen]
      simp
    exact ⟨hd, by rw [hd, readAt_length_of_le (by omega)]⟩
  have h3 : readAt A (payloadEnd A info) 4 ≠ ddMarker →
      (processFile A info).lfh.flag &&& 8 = 0 →
      (processFile A info).descriptor = [] := by
    intro hm hf
    rw [processFile_lfh_eq] at hf
    rw [processFile_descriptor_eq, if_neg hm, if_neg (by simp [hf])]
  refine ⟨h1, h2, h3, ?_, ?_, ?_⟩
  · -- length is 0, 12 or 16
    by_cases hm : readAt A (payloadEnd A info) 4 = ddMarker
    · exact Or.inr (Or.inr (h1 hm).2)
    · by_cases hf : (processFile A info).lfh.flag &&& 8 = 0
      · rw [h3 hm hf]
        exact Or.inl rfl
      · exact Or.inr (Or.inl (h2 hm hf).2)
  · -- the stream item's descriptor_len byte
    rw [streamItemBytes]
    rw [byteAt_append_left (by
      simp only [List.length_append, encodeLFH_length, padTo_length,
        List.length_cons, List.length_nil]
      omega)]
    rw [byteAt_append_left (by
      simp only [List.length_append, encodeLFH_length, padTo_length,
        List.length_cons, List.length_nil]
      omega)]
    rw [byteAt_append_left (by
      simp only [List.length_append, encodeLFH_length, List.length_cons,
        List.length_nil]
      omega)]
    rw [byteAt_append_right (by simp [encodeLFH_length])]
    rw [encodeLFH_length]
    rfl
  · -- exactly the descriptor bytes are appended last
    rw [streamItemBytes]
    have hXlen : (encodeLFH (processFile A info).lfh ++
        [(processFile A info).descriptor.length] ++
        padTo 20 (h (processFile A info).data) ++
        (processFile A info).varFields).length =
        51 + (processFile A info).varFields.length := by
      simp [List.length_append, encodeLFH_length, padTo_length]
      omega
    rw [← hXlen, List.drop_left]

/-- C5 witness: the theorem at the streamed entry of `archiveStream`
(flag bit 3, unmarked descriptor: the 12-byte branch). -/
theorem descriptor_len_spec_witness :
    (readAt archiveStream (payloadEnd archiveStream infoStream) 4 = ddMarker →
      (processFile archiveStream infoStream).descriptor =
        ddMarker ++ readAt archiveStream
          (payloadEnd archiveStream infoStream + 4) 12 ∧
      (processFile archiveStream infoStream).descriptor.length = 16) ∧
    (readAt archiveStream (payloadEnd archiveStream infoStream) 4 ≠ ddMarker →
      (processFile archiveStream infoStream).lfh.flag &&& 8 ≠ 0 →
      (processFile archiveStream infoStream).descriptor =
        readAt archiveStream (payloadEnd archiveStream infoStream) 12 ∧
      (processFile archiveStream infoStream).descriptor.length = 12) ∧
    (readAt archiveStream (payloadEnd archiveStream infoStream) 4 ≠ ddMarker →
      (processFile archiveStream infoStream).lfh.flag &&& 8 = 0 →
      (processFile archiveStream infoStream).descriptor = []) ∧
    ((processFile archiveStream infoStream).descriptor.length = 0 ∨
      (processFile archiveStream infoStream).descriptor.length = 12 ∨
      (processFile archiveStream infoStream).descriptor.length = 16) ∧
    byteAt (streamItemBytes digestTest (processFile archiveStream infoStream))
        30 = (processFile archiveStream infoStream).descriptor.length ∧
    (streamItemBytes digestTest (processFile archiveStream infoStream)).drop
        (51 + (processFile archiveStream infoStream).varFields.length) =
      (processFile archiveStream infoStream).descriptor :=
  descriptor_len_spec digestTest archiveStream infoStream (by decide)

theorem enc16_length (n : Nat) : (enc16 n).length = 2 := rfl

theorem enc32_length (n : Nat) : (enc32 n).length = 4 := rfl

theorem le32_enc32 (c : Nat) : le32 (enc32 c) 0 = c % 4294967296 := by
  show c % 65536 % 256 + 256 * (c % 65536 / 256 % 256) +
      65536 * (c / 65536 % 256 + 256 * (c / 65536 / 256 % 256)) = c % 4294967296
  omega

theorem le32_append_left {xs ys : List Nat} {i : Nat} (h : i + 4 ≤ xs.length) :
    le32 (xs ++ ys) i = le32 xs i := by
  simp only [le32, le16]
  rw [byteAt_append_left (by omega), byteAt_append_left (by omega),
    byteAt_append_left (by omega), byteAt_append_left (by omega)]

theorem le32_append_right0 (xs ys : List Nat) (i : Nat) (h : xs.length = i) :
    le32 (xs ++ ys) i = le32 ys 0 := by
  subst h
  simp only [le32, le16]
  rw [byteAt_append_right (Nat.le_refl _), byteAt_append_right (by omega),
    byteAt_append_right (by omega), byteAt_append_right (by omega)]
  have e0 : xs.length - xs.length = 0 := by omega
  have e1 : xs.length + 1 - xs.length = 1 := by omega
  have e2 : xs.length + 2 - xs.length = 2 := by omega
  have e3 : xs.length + 2 + 1 - xs.length = 3 := by omega
  rw [e0, e1, e2, e3]

theorem le32_lt (s : List Nat) (i : Nat) (h : ∀ b ∈ s, b < 256) :
    le32 s i < 4294967296 := by
  have h0 := byteAt_lt i h
  have h1 := byteAt_lt (i + 1) h
  have h2 := byteAt_lt (i + 2) h
  have h3 := byteAt_lt (i + 2 + 1) h
  simp only [le32, le16]
  omega

theorem le32_encodeLFH_18 (r : LFHRec) :
    le32 (encodeLFH r) 18 = r.compressed_size % 4294967296 := by
  rw [encodeLFH]
  rw [le32_append_left (by
    simp only [List.length_append, padTo_length, enc16_length, enc32_length]
    omega)]
  rw [le32_append_left (by
    simp only [List.length_append, padTo_length, enc16_length, enc32_length]
    omega)]
  rw [le32_append_left (by
    simp only [List.length_append, padTo_length, enc16_length, enc32_length]
    omega)]
  rw [le32_append_right0 _ _ 18 (by
    simp only [List.length_append, padTo_length, enc16_length, enc32_length])]
  exact le32_enc32 r.compressed_size

/-- C3 amended: the stream item's `compressed_size` field (bytes 18–21
of the packed record) carries the Local File Header's value verbatim —
not the central directory's — while the CD's `compressed_size` governs
the payload: exactly that many bytes (clamped at EOF) are read from
just past the variable fields and become the blob. -/
theorem stream_item_size_amended (h : List Nat → List Nat) (A : List Nat)
    (info : CDERec) (hb : ∀ b ∈ A, b < 256) :
    le32 (streamItemBytes h (processFile A info)) 18 =
      (processFile A info).lfh.compressed_size ∧
    (processFile A info).data.length ≤ info.compressed_size ∧
    (processFile A info).data =
      readAt A (info.offset + (readAt A info.offset 30).length +
        (processFile A info).varFields.length) info.compressed_size := by
  refine ⟨?_, ?_, rfl⟩
  · rw [streamItemBytes]
    rw [le32_append_left (by
      simp only [List.length_append, encodeLFH_length, padTo_length,
        List.length_cons, List.length_nil]
      omega)]
    rw [le32_append_left (by
      simp only [List.length_append, encodeLFH_length, padTo_length,
        List.length_cons, List.length_nil]
      omega)]
    rw [le32_append_left (by
      simp only [List.length_append, encodeLFH_length, List.length_cons,
        List.length_nil]
      omega)]
    rw [le32_append_left (by rw [encodeLFH_length]; omega)]
    rw [le32_encodeLFH_18]
    have hlt : (processFile A info).lfh.compressed_size < 4294967296 := by
      rw [processFile_lfh_eq]
      exact le32_lt _ _ fun b hb' => hb b (readAt_subset b hb')
    omega
  · have hd : (processFile A info).data =
        readAt A (info.offset + (readAt A info.offset 30).length +
          (processFile A info).varFields.length) info.compressed_size := rfl
    rw [hd, readAt_length]
    omega

/-- C3 amended, witness: at the streamed entry of `archiveStream` the
serialized field is the LFH's 0 while two payload bytes are read. -/
theorem stream_item_size_amended_witness :
    le32 (streamItemBytes digestTest (processFile archiveStream infoStream))
        18 = (processFile archiveStream infoStream).lfh.compressed_size ∧
    (processFile archiveStream infoStream).data.length ≤
      infoStream.compressed_size ∧
    (processFile archiveStream infoStream).data =
      readAt archiveStream (infoStream.offset +
        (readAt archiveStream infoStream.offset 30).length +
        (processFile archiveStream infoStream).varFields.length)
        infoStream.compressed_size :=
  stream_item_size_amended digestTest archiveStream infoStream (by decide)

end Xzip
